import Mathlib

/-!
Shallow embedding of the Inveni per-file version/backup engine
(`src/utils.py`, `src/gui_commit_page.py`, `src/restore_page.py`).

Modelling conventions:
* File contents are byte lists (`Bytes := List Nat`).
* A path is abstracted by the pair of OS-derived strings the code uses:
  `os.path.normpath(path)` (the catalog key) and `os.path.basename(path)`
  (the per-path blob-directory name).  The OS resolves `path` and its
  normalized form to the same file, so user files are keyed by `norm`.
* `committed_at_utc` timestamps are stored as strings in the source and
  compared after `datetime.strptime(_, "%Y-%m-%d %H:%M:%S")`; a parsed
  datetime is order-isomorphic to a number, so timestamps are `Nat` here.
* SHA-256 (`hashlib.sha256(contents).hexdigest()`) is a pure function of
  the bytes read; it enters the model as an explicit `hashFn` parameter.
  Likewise gzip compression/decompression enter as explicit codec
  parameters; the gzip round-trip contract is a hypothesis where needed.
* Python `dict`s preserve insertion order; assignment to an existing key
  replaces the value in place, deletion removes the pair.  They are
  modelled as association lists with exactly those operations.
-/

namespace Inveni

abbrev Bytes := List Nat

/-- One catalog version record: the value stored under
`tracked_files[normalized_path]["versions"][version_id]`
(`gui_commit_page.py` lines 156-162).  `metadata` is the
`get_file_metadata` payload, recorded verbatim; its internal structure is
irrelevant to every claim, so it is kept as an opaque string. -/
structure Version where
  timestamp : Nat
  commit_message : String
  username : String
  metadata : String
  previous_hash : String
deriving DecidableEq

/-- The `"versions"` dict of one tracked path: `version_id → Version`,
in insertion order. -/
abbrev Versions := List (String × Version)

/-- One entry of `tracked_files.json`: `{"versions": {...}}`. -/
structure Entry where
  versions : Versions
deriving DecidableEq

/-- The parsed catalog `tracked_files.json`: `normalized_path → Entry`,
in insertion order. -/
abbrev Catalog := List (String × Entry)

/-- Python `d[k]` / `k in d` lookup on an insertion-ordered dict. -/
def dictGet? {α : Type} : List (String × α) → String → Option α
  | [], _ => none
  | (k', v) :: rest, k => if k' = k then some v else dictGet? rest k

/-- Python `k in d`. -/
def dictMem {α : Type} (d : List (String × α)) (k : String) : Bool :=
  (dictGet? d k).isSome

/-- Python `d[k] = v`: replace in place if the key exists, else append. -/
def dictInsert {α : Type} : List (String × α) → String → α → List (String × α)
  | [], k, v => [(k, v)]
  | (k', v') :: rest, k, v =>
    if k' = k then (k, v) :: rest else (k', v') :: dictInsert rest k v

/-- Python `del d[k]` (keys are unique, so removing every pair with the
key is exact). -/
def dictErase {α : Type} : List (String × α) → String → List (String × α)
  | [], _ => []
  | kv :: rest, k => if kv.1 = k then dictErase rest k else kv :: dictErase rest k

/-- Python `str.isspace` on the whitespace the engine can meet
(ASCII whitespace; the wider Unicode set is irrelevant to the claims). -/
def pyIsSpace (c : Char) : Bool :=
  c = ' ' || c = '\t' || c = '\n' || c = '\x0d' || c = '\x0b' || c = '\x0c'

/-- Python `str.strip()`: drop leading and trailing whitespace. -/
def pyStrip (s : String) : String :=
  String.mk (((s.data.dropWhile pyIsSpace).reverse.dropWhile pyIsSpace).reverse)

/-- Python `str.endswith(t)`. -/
def strEndsWith (s t : String) : Bool :=
  t.data.isSuffixOf s.data

/-- Python `str.startswith(t)`. -/
def strStartsWith (s t : String) : Bool :=
  t.data.isPrefixOf s.data

/-- A path as the engine sees it: `norm = os.path.normpath(path)`,
`base = os.path.basename(path)`. -/
structure PathId where
  norm : String
  base : String
deriving DecidableEq

/-- A rescue copy in `<backup_folder>/temp_backups/`. -/
structure BakFile where
  name : String
  ctime : Nat
  content : Bytes
deriving DecidableEq

/-- The parts of the world the engine touches: the parsed content of
`tracked_files.json` (missing or corrupt file loads as `{}`, which is the
empty catalog here), the user files, the per-base blob directories
`<backup_folder>/versions/<base>/` (filename → bytes), and the
`temp_backups` directory. -/
structure SysState where
  catalogFile : Catalog
  files : List (String × Bytes)
  versionDirs : List (String × List (String × Bytes))
  tempBackups : List BakFile
deriving DecidableEq

/-- `load_tracked_files` (`utils.py` 72-81): parse `tracked_files.json`;
a missing or unparsable file yields `{}` (already folded into
`catalogFile`). -/
def load_tracked_files (st : SysState) : Catalog := st.catalogFile

/-- `save_tracked_files` (`utils.py` 84-91): `json.dump` the whole dict
over `tracked_files.json` (end state; the in-place write process itself is
modelled separately by `saveStatesInPlace`). -/
def save_tracked_files (st : SysState) (tracked : Catalog) : SysState :=
  { st with catalogFile := tracked }

/-- The `os.makedirs(version_dir, exist_ok=True)` side effect of
`get_backup_path` (`utils.py` 94-99): ensure the per-base directory
exists. -/
def ensureVersionDir (dirs : List (String × List (String × Bytes))) (base : String) :
    List (String × List (String × Bytes)) :=
  match dictGet? dirs base with
  | some _ => dirs
  | none => dirs ++ [(base, [])]

/-- Stable descending insertion by parsed timestamp: an element being
inserted comes from earlier in the original list than everything already
in the sorted tail, so on ties it goes first — exactly Python's stable
`sorted(..., reverse=True)`. -/
def insertByTsDesc (x : String × Version) : Versions → Versions
  | [] => [x]
  | y :: ys =>
    if y.2.timestamp ≤ x.2.timestamp then x :: y :: ys else y :: insertByTsDesc x ys

/-- `sorted(versions.items(), key=λx. strptime(x[1]["timestamp"]), reverse=True)`
(`utils.py` 39-43 and 120-124, `restore_page.py` 49-53). -/
def sortByTsDesc : Versions → Versions
  | [] => []
  | x :: xs => insertByTsDesc x (sortByTsDesc xs)

/-- `calculate_file_hash` (`utils.py` 12-19): read the whole file and
return `hashlib.sha256(contents).hexdigest()` — a pure function `hashFn`
of the bytes; `none` when the file cannot be opened. -/
def calculate_file_hash (hashFn : Bytes → String)
    (files : List (String × Bytes)) (p : PathId) : Option String :=
  match dictGet? files p.norm with
  | none => none
  | some content => some (hashFn content)

/-- `has_file_changed` (`utils.py` 22-50): returns
`(has_changed, current_hash, last_hash)`; `none` models the propagated
exception when the file cannot be read. -/
def has_file_changed (hashFn : Bytes → String)
    (files : List (String × Bytes)) (tracked : Catalog) (p : PathId) :
    Option (Bool × String × String) :=
  match dictGet? files p.norm with
  | none => none
  | some content =>
    let current_hash := hashFn content
    match dictGet? tracked p.norm with
    | none => some (true, current_hash, "")
    | some entry =>
      if entry.versions = [] then some (true, current_hash, "")
      else
        match sortByTsDesc entry.versions with
        | [] => some (true, current_hash, "")
        | (last_hash, _) :: _ =>
          some (decide (current_hash ≠ last_hash), current_hash, last_hash)

/-- The age test of the `.bak` sweep (`utils.py` 141-146):
`filename.startswith(base) and filename.endswith('.bak')` and
`(now - ctime).days >= 1`, i.e. at least 86400 seconds old
(a `ctime` in the future gives a negative `days`, hence `False`). -/
def bakExpired (base : String) (now : Nat) (b : BakFile) : Bool :=
  strStartsWith b.name base && strEndsWith b.name ".bak" && decide (b.ctime + 86400 ≤ now)

/-- Result of `clean_old_backups`: the caller's (mutated) in-memory
catalog dict, the filesystem afterwards, and whether
`save_tracked_files` ran. -/
structure SweepResult where
  tracked : Catalog
  st : SysState
  didSave : Bool
deriving DecidableEq

/-- Removes one version id from one path's `"versions"` dict:
`del tracked_files[normalized_path]["versions"][version_hash]`
(`utils.py` 135). -/
def eraseVersion (tracked : Catalog) (normPath : String) (h : String) : Catalog :=
  match dictGet? tracked normPath with
  | none => tracked
  | some e => dictInsert tracked normPath ⟨dictErase e.versions h⟩

/-- `clean_old_backups` (`utils.py` 102-152).  Early-returns (no save)
when the per-base version directory does not exist, the normalized path
is not in the caller's dict, or the path's version map is empty.
Otherwise sorts the versions newest-first, keeps the first `max_backups`,
removes each evicted version's blob (`os.remove` guarded by
`os.path.exists`, so a missing blob is skipped) and its entry in the
caller's dict, ages out this base's `.bak` rescue copies, and saves the
caller's dict over `tracked_files.json`. -/
def clean_old_backups (p : PathId) (maxBackups : Nat) (now : Nat)
    (tracked : Catalog) (st : SysState) : SweepResult :=
  match dictGet? st.versionDirs p.base with
  | none => ⟨tracked, st, false⟩
  | some listing =>
    match dictGet? tracked p.norm with
    | none => ⟨tracked, st, false⟩
    | some entry =>
      if entry.versions = [] then ⟨tracked, st, false⟩
      else
        let toDelete := (sortByTsDesc entry.versions).drop maxBackups
        let listing2 := toDelete.foldl (fun d kv => dictErase d (kv.1 ++ ".gz")) listing
        let tracked2 := toDelete.foldl (fun t kv => eraseVersion t p.norm kv.1) tracked
        let temps2 := st.tempBackups.filter (fun b => !(bakExpired p.base now b))
        ⟨tracked2,
         { st with
            versionDirs := dictInsert st.versionDirs p.base listing2,
            tempBackups := temps2,
            catalogFile := tracked2 },
         true⟩

/-- `create_backup` (`utils.py` 155-172): `get_backup_path` makes the
per-base directory, the source file is streamed through gzip into
`<version_dir>/<file_hash>.gz`, then a fresh `load_tracked_files` feeds
`clean_old_backups`.  `none` models the raised exception when the source
file cannot be opened (the per-base directory, already created, is then
irrelevant to the caller, which aborts). -/
def create_backup (compress : Bytes → Bytes) (p : PathId) (fileHash : String)
    (maxBackups : Nat) (now : Nat) (st : SysState) : Option SysState :=
  let dirs0 := ensureVersionDir st.versionDirs p.base
  match dictGet? st.files p.norm with
  | none => none
  | some content =>
    let listing := (dictGet? dirs0 p.base).getD []
    let listing1 := dictInsert listing (fileHash ++ ".gz") (compress content)
    let st1 := { st with versionDirs := dictInsert dirs0 p.base listing1 }
    let tracked := load_tracked_files st1
    (clean_old_backups p maxBackups now tracked st1).st |> some

/-- Outcome of `commit_file_action` (`gui_commit_page.py` 115-187):
which dialog the user saw and, on success, the committed version id and
whether a change had been detected (`"Modified"` vs
`"No changes (manual backup)"`). -/
inductive CommitOutcome where
  | noFile
  | emptyMessage
  | declined
  | failed
  | committed (versionId : String) (hasChanged : Bool)
deriving DecidableEq

/-- `commit_file_action` (`gui_commit_page.py` 115-187).  Checks the
selected file exists, rejects an empty trimmed message, loads the
catalog, runs change detection; when no change is detected the user is
asked whether to back up anyway (`forceBackup` is that answer), a `no`
returns without writing.  Otherwise `create_backup` writes the blob and
runs the retention sweep on a *freshly loaded* catalog, after which the
new version record (timestamped `now`, `previous_hash := last_hash`) is
written into the dict loaded at the start and that dict is saved. -/
def commit_file_action (hashFn : Bytes → String) (compress : Bytes → Bytes)
    (p : PathId) (message : String) (username : String) (metadata : String)
    (maxBackups : Nat) (now : Nat) (forceBackup : Bool) (st : SysState) :
    CommitOutcome × SysState :=
  match dictGet? st.files p.norm with
  | none => (.noFile, st)
  | some _ =>
    let msg := pyStrip message
    if msg = "" then (.emptyMessage, st)
    else
      let tracked := load_tracked_files st
      match has_file_changed hashFn st.files tracked p with
      | none => (.failed, st)
      | some (hasChanged, current_hash, last_hash) =>
        if !hasChanged && !forceBackup then (.declined, st)
        else
          match create_backup compress p current_hash maxBackups now st with
          | none => (.failed, st)
          | some st1 =>
            let tracked1 :=
              if dictMem tracked p.norm then tracked
              else dictInsert tracked p.norm ⟨[]⟩
            let entry := (dictGet? tracked1 p.norm).getD ⟨[]⟩
            let newV : Version := ⟨now, msg, username, metadata, last_hash⟩
            let tracked2 := dictInsert tracked1 p.norm ⟨dictInsert entry.versions current_hash newV⟩
            (.committed current_hash hasChanged, save_tracked_files st1 tracked2)

/-- Result of streaming `gzip.open(blob).read()` through
`shutil.copyfileobj`: either the full original bytes, or a gzip decode
failure after `written` bytes have already been copied out. -/
inductive DecodeResult where
  | ok (b : Bytes)
  | fail (written : Bytes)
deriving DecidableEq

/-- `restore_file_version` (`utils.py` 190-210).  `get_backup_path` makes
the per-base directory; a missing blob raises `FileNotFoundError`
(result `none`, state otherwise untouched).  If the target file exists,
`shutil.copy2` saves it as a timestamped rescue copy under
`temp_backups/`.  Then the blob is decompressed **directly into
`open(normalized_path, 'wb')`** — the open truncates the file and the
copy loop writes into it in place, so a mid-way decode failure leaves
the bytes written so far at the target path (result `none`). -/
def restore_file_version (dec : Bytes → DecodeResult) (p : PathId)
    (fileHash : String) (now : Nat) (st : SysState) : Option Unit × SysState :=
  let dirs0 := ensureVersionDir st.versionDirs p.base
  let st0 := { st with versionDirs := dirs0 }
  match dictGet? ((dictGet? dirs0 p.base).getD []) (fileHash ++ ".gz") with
  | none => (none, st0)
  | some blob =>
    let st1 :=
      match dictGet? st0.files p.norm with
      | some cur =>
        { st0 with tempBackups :=
            st0.tempBackups ++ [(⟨p.base ++ "." ++ toString now ++ ".bak", now, cur⟩ : BakFile)] }
      | none => st0
    match dec blob with
    | .ok b => (some (), { st1 with files := dictInsert st1.files p.norm b })
    | .fail w => (none, { st1 with files := dictInsert st1.files p.norm w })

/-- The version list the restore page shows (`restore_page.py` 31-72):
the path's versions sorted newest-first (an untracked path lists
nothing). -/
def list_versions (tracked : Catalog) (p : PathId) : Versions :=
  match dictGet? tracked p.norm with
  | none => []
  | some e => sortByTsDesc e.versions

/-- What the OS reports about `<backup_folder>/versions/<base>/`:
the directory is absent, inspecting it raises an `OSError`, or it lists
these file names. -/
inductive DirListing where
  | absent
  | oserr
  | ok (names : List String)
deriving DecidableEq

/-- `get_backup_count` (`utils.py` 175-187): `0` when the directory does
not exist, the number of names ending in `'.gz'` otherwise, and `0` if
anything raises (`except Exception: return 0`). -/
def get_backup_count (p : PathId) (d : DirListing) : Nat :=
  match d with
  | .absent => 0
  | .oserr => 0
  | .ok names => (names.filter (fun f => strEndsWith f ".gz")).length

/-- The directory observation `get_backup_count` makes on a `SysState`
(no OS errors arise in the model). -/
def dirListingOf (st : SysState) (base : String) : DirListing :=
  match dictGet? st.versionDirs base with
  | none => .absent
  | some l => .ok (l.map (fun kv => kv.1))

/-- The sequence of on-disk contents of `tracked_files.json` observable
while `save_tracked_files` (`utils.py` 84-91) runs:
`open("tracked_files.json", "w")` truncates the file, then `json.dump`
writes the serialized document (`newDoc`) sequentially, so after `k`
bytes the file holds `newDoc.take k`. -/
def saveStatesInPlace (newDoc : Bytes) : List Bytes :=
  (List.range (newDoc.length + 1)).map (fun k => newDoc.take k)

/-- Modelled from the spec (§4.4): the latest version of a path is the
one with maximal `committed_at_utc`, ties broken by insertion order. -/
def specLatest : Versions → Option (String × Version)
  | [] => none
  | x :: xs =>
    match specLatest xs with
    | none => some x
    | some a => if a.2.timestamp ≤ x.2.timestamp then some x else some a

/-- The displayed order relation of the version list: non-increasing
parsed timestamps. -/
def TsSorted (l : Versions) : Prop :=
  l.Chain' (fun a b => b.2.timestamp ≤ a.2.timestamp)

/-- The `last_hash` a commit records as `previous_hash`: the id of the
latest version before the commit, or `""` when there was none
(derived form of `has_file_changed`'s third component). -/
def lastHashOf (vs : Versions) : String :=
  match specLatest vs with
  | none => ""
  | some lv => lv.1

/-- The catalog document a commit of fresh content `h` at `p` saves:
the path's version dict gains `(h ↦ new record)` at the end, with
`previous_hash` the id of the previously-latest version (derived form,
established by `commit_fresh_eq`). -/
def commitFreshCatalog (tracked : Catalog) (p : PathId)
    (h msg username metadata : String) (now : Nat) : Catalog :=
  let vs := match dictGet? tracked p.norm with
    | none => []
    | some e => e.versions
  dictInsert tracked p.norm
    ⟨vs ++ [(h, ⟨now, msg, username, metadata, lastHashOf vs⟩)]⟩

/-! ## Concrete data for the closed example theorems -/

/-- A hash function for the closed examples: the two file contents that
occur get distinct digests. -/
def exHash : Bytes → String := fun b => if b = [1] then "h1" else "h2"

/-- The identity codec stands in for gzip in the closed examples (any
concrete invertible codec works; the engine never inspects blob bytes). -/
def exCodec : Bytes → Bytes := fun b => b

/-- The examples' tracked path: `normpath = basename = "f"`. -/
def exPath : PathId := ⟨"f", "f"⟩

/-- One prior version of content `[1]` (hash `"h1"`), committed at time 1. -/
def exStA : SysState :=
  ⟨[("f", ⟨[("h1", ⟨1, "m1", "u", "md", ""⟩)]⟩)],
   [("f", [2])],
   [("f", [("h1.gz", [1])])], []⟩

/-- Same catalog as `exStA` but the on-disk content is still `[1]`
(unchanged since the commit of `"h1"`). -/
def exStB : SysState :=
  ⟨[("f", ⟨[("h1", ⟨1, "init", "u", "md", ""⟩)]⟩)],
   [("f", [1])],
   [("f", [("h1.gz", [1])])], []⟩

/-- Two versions `"h1"` (older) and `"h2"` (newer); the on-disk content
hashes back to the old `"h1"`; only `"h2"`'s blob remains. -/
def exStC : SysState :=
  ⟨[("f", ⟨[("h1", ⟨1, "a", "u", "md", ""⟩), ("h2", ⟨2, "b", "u", "md", "h1"⟩)]⟩)],
   [("f", [1])],
   [("f", [("h2.gz", [2])])], []⟩

/-- A file `[1, 2]` on disk and a stored blob for `"h1"`. -/
def exStD : SysState :=
  ⟨[], [("f", [1, 2])], [("f", [("h1.gz", [9])])], []⟩

/-- A commit message of 201 `'a'`s (length 201 after stripping). -/
def exLongMsg : String := String.mk (List.replicate 201 'a')

/-! ## Helper lemmas about the dictionary model -/

theorem dictGet?_insert_self {α : Type} (d : List (String × α)) (k : String) (v : α) :
    dictGet? (dictInsert d k v) k = some v := by
  induction d with
  | nil => simp [dictInsert, dictGet?]
  | cons kv rest ih =>
    by_cases h : kv.1 = k
    · simp [dictInsert, dictGet?, h]
    · simp [dictInsert, dictGet?, h, ih]

theorem dictGet?_insert_ne {α : Type} (d : List (String × α)) (k k' : String) (v : α)
    (h : k' ≠ k) : dictGet? (dictInsert d k v) k' = dictGet? d k' := by
  have hne : k ≠ k' := Ne.symm h
  induction d with
  | nil => simp [dictInsert, dictGet?, hne]
  | cons kv rest ih =>
    simp only [dictInsert]
    by_cases hk : kv.1 = k
    · rw [if_pos hk]
      simp only [dictGet?]
      rw [if_neg hne, if_neg (by rw [hk]; exact hne)]
    · rw [if_neg hk]
      simp only [dictGet?]
      by_cases hk' : kv.1 = k'
      · rw [if_pos hk', if_pos hk']
      · rw [if_neg hk', if_neg hk', ih]

theorem dictGet?_erase_ne {α : Type} (d : List (String × α)) (k k' : String)
    (h : k' ≠ k) : dictGet? (dictErase d k) k' = dictGet? d k' := by
  induction d with
  | nil => rfl
  | cons kv rest ih =>
    simp only [dictErase]
    by_cases hk : kv.1 = k
    · rw [if_pos hk, ih]
      simp only [dictGet?]
      rw [if_neg (by rw [hk]; exact Ne.symm h)]
    · rw [if_neg hk]
      simp only [dictGet?]
      by_cases hk' : kv.1 = k'
      · rw [if_pos hk', if_pos hk']
      · rw [if_neg hk', if_neg hk', ih]

theorem dictGet?_eq_none_of_forall {α : Type} (d : List (String × α)) (k : String)
    (h : ∀ kv ∈ d, kv.1 ≠ k) : dictGet? d k = none := by
  induction d with
  | nil => rfl
  | cons kv rest ih =>
    have h1 : kv.1 ≠ k := h kv (by simp)
    simp only [dictGet?, if_neg h1]
    exact ih fun x hx => h x (by simp [hx])

theorem dictInsert_of_not_mem {α : Type} (d : List (String × α)) (k : String) (v : α)
    (h : dictGet? d k = none) : dictInsert d k v = d ++ [(k, v)] := by
  induction d with
  | nil => rfl
  | cons kv rest ih =>
    by_cases hk : kv.1 = k
    · simp [dictGet?, hk] at h
    · simp only [dictGet?, if_neg hk] at h
      simp [dictInsert, hk, ih h]

theorem keys_dictInsert_of_mem {α : Type} (d : List (String × α)) (k : String) (v : α)
    (h : (dictGet? d k).isSome) :
    (dictInsert d k v).map Prod.fst = d.map Prod.fst := by
  induction d with
  | nil => simp [dictGet?] at h
  | cons kv rest ih =>
    by_cases hk : kv.1 = k
    · simp [dictInsert, hk]
    · simp only [dictGet?, if_neg hk] at h
      simp [dictInsert, hk, ih h]

theorem dictGet?_append_left_none {α : Type} (d1 d2 : List (String × α)) (k : String)
    (h : dictGet? d1 k = none) : dictGet? (d1 ++ d2) k = dictGet? d2 k := by
  induction d1 with
  | nil => rfl
  | cons kv rest ih =>
    by_cases hk : kv.1 = k
    · simp [dictGet?, hk] at h
    · simp only [dictGet?, if_neg hk] at h
      simp only [List.cons_append, dictGet?, if_neg hk]
      exact ih h

theorem ensureVersionDir_lookup (dirs : List (String × List (String × Bytes)))
    (base : String) :
    dictGet? (ensureVersionDir dirs base) base = some ((dictGet? dirs base).getD []) := by
  unfold ensureVersionDir
  cases h : dictGet? dirs base with
  | some l => simp [h]
  | none => simp [dictGet?_append_left_none _ _ _ h, dictGet?]

theorem ensureVersionDir_of_mem (dirs : List (String × List (String × Bytes)))
    (base : String) (l : List (String × Bytes)) (h : dictGet? dirs base = some l) :
    ensureVersionDir dirs base = dirs := by
  unfold ensureVersionDir
  simp [h]

theorem dictInsert_insert_self {α : Type} (d : List (String × α)) (k : String) (v w : α) :
    dictInsert (dictInsert d k v) k w = dictInsert d k w := by
  induction d with
  | nil => simp [dictInsert]
  | cons kv rest ih =>
    by_cases hk : kv.1 = k
    · simp [dictInsert, hk]
    · simp [dictInsert, hk, ih]

theorem gzName_inj {a b : String} (h : a ++ ".gz" = b ++ ".gz") : a = b := by
  have hd := congrArg String.data h
  simp only [String.data_append] at hd
  exact String.ext (List.append_cancel_right hd)

/-! ## Helper lemmas about the timestamp sort -/

theorem length_insertByTsDesc (x : String × Version) (l : Versions) :
    (insertByTsDesc x l).length = l.length + 1 := by
  induction l with
  | nil => rfl
  | cons y ys ih =>
    by_cases h : y.2.timestamp ≤ x.2.timestamp
    · simp [insertByTsDesc, h]
    · simp [insertByTsDesc, h, ih]

theorem length_sortByTsDesc (l : Versions) : (sortByTsDesc l).length = l.length := by
  induction l with
  | nil => rfl
  | cons x xs ih => simp [sortByTsDesc, length_insertByTsDesc, ih]

theorem mem_insertByTsDesc (x y : String × Version) (l : Versions) :
    y ∈ insertByTsDesc x l ↔ y = x ∨ y ∈ l := by
  induction l with
  | nil => simp [insertByTsDesc]
  | cons z zs ih =>
    by_cases h : z.2.timestamp ≤ x.2.timestamp
    · simp [insertByTsDesc, h]
    · simp only [insertByTsDesc, if_neg h, List.mem_cons, ih]
      tauto

theorem mem_sortByTsDesc (y : String × Version) (l : Versions) :
    y ∈ sortByTsDesc l ↔ y ∈ l := by
  induction l with
  | nil => simp [sortByTsDesc]
  | cons x xs ih => simp [sortByTsDesc, mem_insertByTsDesc, ih]

theorem head?_insertByTsDesc (x : String × Version) (l : Versions) :
    (insertByTsDesc x l).head? =
      match l.head? with
      | none => some x
      | some y => if y.2.timestamp ≤ x.2.timestamp then some x else some y := by
  cases l with
  | nil => rfl
  | cons y ys =>
    by_cases h : y.2.timestamp ≤ x.2.timestamp
    · simp [insertByTsDesc, h]
    · simp [insertByTsDesc, h]

theorem head?_sortByTsDesc (l : Versions) : (sortByTsDesc l).head? = specLatest l := by
  induction l with
  | nil => rfl
  | cons x xs ih =>
    simp only [sortByTsDesc, head?_insertByTsDesc, ih, specLatest]

theorem tsSorted_insertByTsDesc (x : String × Version) (l : Versions)
    (h : TsSorted l) : TsSorted (insertByTsDesc x l) := by
  induction l with
  | nil => simp [insertByTsDesc, TsSorted]
  | cons y ys ih =>
    rw [TsSorted, List.chain'_cons'] at h
    by_cases hxy : y.2.timestamp ≤ x.2.timestamp
    · rw [insertByTsDesc, if_pos hxy]
      rw [TsSorted, List.chain'_cons']
      refine ⟨?_, List.chain'_cons'.mpr h⟩
      intro z hz
      simp only [List.head?_cons, Option.mem_def, Option.some.injEq] at hz
      subst hz
      exact hxy
    · rw [insertByTsDesc, if_neg hxy]
      rw [TsSorted, List.chain'_cons']
      refine ⟨?_, ih h.2⟩
      intro z hz
      rw [head?_insertByTsDesc] at hz
      cases hys : ys.head? with
      | none =>
        simp only [hys, Option.mem_def, Option.some.injEq] at hz
        subst hz
        exact Nat.le_of_not_le hxy
      | some w =>
        simp only [hys, Option.mem_def] at hz
        by_cases hw : w.2.timestamp ≤ x.2.timestamp
        · rw [if_pos hw] at hz
          have hz' : x = z := Option.some.inj hz
          subst hz'
          exact Nat.le_of_not_le hxy
        · rw [if_neg hw] at hz
          have hz' : w = z := Option.some.inj hz
          subst hz'
          exact h.1 w hys

theorem tsSorted_sortByTsDesc (l : Versions) : TsSorted (sortByTsDesc l) := by
  induction l with
  | nil => simp [sortByTsDesc, TsSorted]
  | cons x xs ih => exact tsSorted_insertByTsDesc x _ ih

theorem sortByTsDesc_append_max (l : Versions) (x : String × Version)
    (h : ∀ y ∈ l, y.2.timestamp < x.2.timestamp) :
    sortByTsDesc (l ++ [x]) = x :: sortByTsDesc l := by
  induction l with
  | nil => rfl
  | cons a rest ih =>
    have hlt : a.2.timestamp < x.2.timestamp := h a (by simp)
    have hrest : ∀ y ∈ rest, y.2.timestamp < x.2.timestamp :=
      fun y hy => h y (by simp [hy])
    simp only [List.cons_append, sortByTsDesc, List.append_eq, ih hrest]
    simp only [insertByTsDesc, if_neg (Nat.not_le_of_lt hlt)]

theorem specLatest_mem (l : Versions) (lv : String × Version)
    (h : specLatest l = some lv) : lv ∈ l := by
  induction l with
  | nil => simp [specLatest] at h
  | cons x xs ih =>
    simp only [specLatest] at h
    cases hs : specLatest xs with
    | none =>
      simp only [hs, Option.some.injEq] at h
      simp [h]
    | some a =>
      simp only [hs] at h
      by_cases hc : a.2.timestamp ≤ x.2.timestamp
      · rw [if_pos hc] at h
        simp only [Option.some.injEq] at h
        simp [h]
      · rw [if_neg hc] at h
        simp only [Option.some.injEq] at h
        subst h
        simp [ih hs]

theorem specLatest_ne_nil (l : Versions) (lv : String × Version)
    (h : specLatest l = some lv) : l ≠ [] := by
  intro hl
  rw [hl] at h
  simp [specLatest] at h

theorem dictGet?_foldl_erase_ne {α : Type} (L : List (String × Version))
    (d0 : List (String × α)) (k : String)
    (h : ∀ kv ∈ L, kv.1 ++ ".gz" ≠ k) :
    dictGet? (L.foldl (fun d kv => dictErase d (kv.1 ++ ".gz")) d0) k = dictGet? d0 k := by
  induction L generalizing d0 with
  | nil => rfl
  | cons kv rest ih =>
    simp only [List.foldl_cons]
    rw [ih _ fun x hx => h x (by simp [hx])]
    exact dictGet?_erase_ne _ _ _ (Ne.symm (h kv (by simp)))

theorem drop_sortByTsDesc_eq_nil (l : Versions) (n : Nat) (h : l.length ≤ n) :
    (sortByTsDesc l).drop n = [] := by
  apply List.drop_eq_nil_of_le
  rw [length_sortByTsDesc]
  exact h

/-! ## Traces of `create_backup` and `commit_file_action` -/

theorem create_backup_no_evict (compress : Bytes → Bytes) (p : PathId) (fh : String)
    (maxBackups now : Nat) (st : SysState) (content : Bytes) (e : Entry)
    (listing : List (String × Bytes))
    (hf : dictGet? st.files p.norm = some content)
    (hdir : dictGet? st.versionDirs p.base = some listing)
    (hc : dictGet? st.catalogFile p.norm = some e)
    (hne : e.versions ≠ [])
    (hq : e.versions.length ≤ maxBackups) :
    create_backup compress p fh maxBackups now st =
      some { st with
        versionDirs := dictInsert st.versionDirs p.base
          (dictInsert listing (fh ++ ".gz") (compress content)),
        tempBackups := st.tempBackups.filter (fun b => !(bakExpired p.base now b)) } := by
  have hdirs0 : ensureVersionDir st.versionDirs p.base = st.versionDirs :=
    ensureVersionDir_of_mem _ _ _ hdir
  simp only [create_backup, hdirs0, hf, hdir, Option.getD_some, load_tracked_files,
    clean_old_backups, dictGet?_insert_self, hc, if_neg hne,
    drop_sortByTsDesc_eq_nil _ _ hq, List.foldl_nil, dictInsert_insert_self]

theorem dictGet?_isSome_of_mem {α : Type} (d : List (String × α)) (kv : String × α)
    (h : kv ∈ d) : (dictGet? d kv.1).isSome := by
  induction d with
  | nil => simp at h
  | cons a rest ih =>
    rcases List.mem_cons.mp h with h1 | h2
    · subst h1
      simp [dictGet?]
    · by_cases ha : a.1 = kv.1
      · simp [dictGet?, ha]
      · simp [dictGet?, ha, ih h2]

theorem create_backup_fresh_blob (compress : Bytes → Bytes) (p : PathId) (h : String)
    (maxBackups now : Nat) (st : SysState) (content : Bytes)
    (hf : dictGet? st.files p.norm = some content)
    (hfresh : ∀ e, dictGet? st.catalogFile p.norm = some e → ∀ kv ∈ e.versions, kv.1 ≠ h) :
    ∃ st1 listing1, create_backup compress p h maxBackups now st = some st1 ∧
      dictGet? st1.versionDirs p.base = some listing1 ∧
      dictGet? listing1 (h ++ ".gz") = some (compress content) ∧
      st1.files = st.files := by
  simp only [create_backup, hf, load_tracked_files]
  set L1 := dictInsert ((dictGet? (ensureVersionDir st.versionDirs p.base) p.base).getD [])
    (h ++ ".gz") (compress content) with hL1
  set stp := { st with versionDirs := dictInsert (ensureVersionDir st.versionDirs p.base) p.base L1 }
    with hstp
  have hdirp : dictGet? stp.versionDirs p.base = some L1 := dictGet?_insert_self _ _ _
  cases hcc : dictGet? st.catalogFile p.norm with
  | none =>
    refine ⟨stp, L1, ?_, hdirp, dictGet?_insert_self _ _ _, rfl⟩
    simp only [clean_old_backups, hdirp, hcc]
  | some e =>
    by_cases hv : e.versions = []
    · refine ⟨stp, L1, ?_, hdirp, dictGet?_insert_self _ _ _, rfl⟩
      simp only [clean_old_backups, hdirp, hcc, if_pos hv]
    · set toDel := (sortByTsDesc e.versions).drop maxBackups with htd
      set L2 := toDel.foldl (fun d kv => dictErase d (kv.1 ++ ".gz")) L1 with hL2
      refine ⟨{ catalogFile := toDel.foldl (fun t kv => eraseVersion t p.norm kv.1) st.catalogFile,
                files := st.files,
                versionDirs := dictInsert stp.versionDirs p.base L2,
                tempBackups := st.tempBackups.filter (fun b => !(bakExpired p.base now b)) },
              L2, ?_, ?_, ?_, rfl⟩
      · simp only [clean_old_backups, hdirp, hcc, if_neg hv]
      · exact dictGet?_insert_self _ _ _
      · rw [hL2]
        rw [dictGet?_foldl_erase_ne _ _ _ ?hne]
        · exact dictGet?_insert_self _ _ _
        case hne =>
          intro kv hkv heq
          have hmem : kv ∈ e.versions := by
            rw [← mem_sortByTsDesc]
            exact List.mem_of_mem_drop hkv
          exact hfresh e hcc kv hmem (gzName_inj heq)

theorem commit_fresh_eq (hashFn : Bytes → String) (compress : Bytes → Bytes)
    (p : PathId) (message username metadata : String) (maxBackups now : Nat)
    (st : SysState) (content : Bytes) (h : String)
    (hf : dictGet? st.files p.norm = some content)
    (hh : hashFn content = h)
    (hfresh : ∀ e, dictGet? st.catalogFile p.norm = some e → ∀ kv ∈ e.versions, kv.1 ≠ h)
    (hmsg : pyStrip message ≠ "") :
    ∃ st1, create_backup compress p h maxBackups now st = some st1 ∧
      commit_file_action hashFn compress p message username metadata maxBackups now false st
        = (.committed h true,
           save_tracked_files st1
             (commitFreshCatalog st.catalogFile p h (pyStrip message) username metadata now)) := by
  obtain ⟨st1, L1, hcb, -, -, -⟩ :=
    create_backup_fresh_blob compress p h maxBackups now st content hf hfresh
  refine ⟨st1, hcb, ?_⟩
  cases hcc : dictGet? st.catalogFile p.norm with
  | none =>
    have hhc : has_file_changed hashFn st.files st.catalogFile p = some (true, h, "") := by
      simp only [has_file_changed, hf, hcc, hh]
    simp only [commit_file_action, hf, if_neg hmsg, load_tracked_files, hhc, hh,
      Bool.not_true, Bool.not_false, Bool.false_and, Bool.false_eq_true, if_false, hcb,
      dictMem, hcc, Option.isSome_none, if_neg Bool.false_ne_true,
      dictGet?_insert_self, Option.getD_some, dictInsert_insert_self,
      commitFreshCatalog, lastHashOf, specLatest, List.nil_append]
    rfl
  | some e =>
    have hmem : dictMem st.catalogFile p.norm = true := by
      simp [dictMem, hcc]
    by_cases hv : e.versions = []
    · have hhc : has_file_changed hashFn st.files st.catalogFile p = some (true, h, "") := by
        simp only [has_file_changed, hf, hcc, if_pos hv, hh]
      have hnone : dictGet? e.versions h = none := by rw [hv]; rfl
      simp only [commit_file_action, hf, if_neg hmsg, load_tracked_files, hhc, hh,
        Bool.not_true, Bool.not_false, Bool.false_and, Bool.false_eq_true, if_false, hcb,
        hmem, if_true, hcc, Option.getD_some,
        commitFreshCatalog, lastHashOf, hv, specLatest, List.nil_append,
        dictInsert_of_not_mem _ _ _ hnone]
      rfl
    · cases hs : sortByTsDesc e.versions with
      | nil =>
        exfalso
        apply hv
        have hlen := length_sortByTsDesc e.versions
        rw [hs] at hlen
        exact List.length_eq_zero.mp hlen.symm
      | cons kv0 rest =>
        have hk0mem : kv0 ∈ e.versions := by
          rw [← mem_sortByTsDesc]
          rw [hs]
          simp
        have hk0ne : kv0.1 ≠ h := hfresh e hcc kv0 hk0mem
        have hdec : decide (h ≠ kv0.1) = true := by
          simp [Ne.symm hk0ne]
        have hhc : has_file_changed hashFn st.files st.catalogFile p
            = some (true, h, kv0.1) := by
          simp only [has_file_changed, hf, hcc, if_neg hv, hs, hh, hdec]
        have hlast : lastHashOf e.versions = kv0.1 := by
          rw [lastHashOf, ← head?_sortByTsDesc, hs]
          rfl
        have hnone : dictGet? e.versions h = none :=
          dictGet?_eq_none_of_forall _ _ (hfresh e hcc)
        simp only [commit_file_action, hf, if_neg hmsg, load_tracked_files, hhc, hh,
          Bool.not_true, Bool.not_false, Bool.false_and, Bool.false_eq_true, if_false, hcb,
          hmem, if_true, hcc, Option.getD_some,
          commitFreshCatalog, hlast,
          dictInsert_of_not_mem _ _ _ hnone]

/-! ## Claim theorems -/

/-- C1: the claim fails on the code and the code contradicts its own
intent (code bug).  With `max_backups = 1` and one version already
recorded, a successful commit of fresh content leaves 2 catalog versions
for the path and 2 blobs in its version directory: the retention sweep
inside `create_backup` runs before the new version exists, and its
catalog trim is overwritten by `commit_file_action`'s final save of the
stale dict loaded at the start. -/
theorem C1_commit_exceeds_quota :
    (commit_file_action exHash exCodec exPath "edit" "u" "md" 1 10 false exStA).1
        = .committed "h2" true ∧
    ((dictGet? (commit_file_action exHash exCodec exPath "edit" "u" "md" 1 10 false
        exStA).2.catalogFile "f").map (fun e => e.versions.length)) = some 2 ∧
    get_backup_count exPath
      (dirListingOf (commit_file_action exHash exCodec exPath "edit" "u" "md" 1 10 false
        exStA).2 "f") = 2 := by
  decide

/-- C2 counterexample: a forced ("backup anyway") recommit of unchanged
content does NOT leave the catalog unchanged — the existing entry for the
content hash is overwritten with the new timestamp and message, and its
`previous_hash` becomes its own version id. -/
theorem C2_force_recommit_mutates_catalog :
    (commit_file_action exHash exCodec exPath "again" "u" "md" 5 2 true exStB).1
        = .committed "h1" false ∧
    (commit_file_action exHash exCodec exPath "again" "u" "md" 5 2 true exStB).2.catalogFile
        ≠ exStB.catalogFile ∧
    ((dictGet? (commit_file_action exHash exCodec exPath "again" "u" "md" 5 2 true
        exStB).2.catalogFile "f").map
      (fun e => e.versions.map (fun kv => (kv.1, kv.2.previous_hash, kv.2.commit_message))))
        = some [("h1", "h1", "again")] := by
  decide

/-- C3 counterexample: `restore_file_version` decompresses straight into
`open(path, 'wb')`; a decompression that fails after writing nothing
still leaves the truncated (empty) file at the path, not the original
bytes `[1, 2]`. -/
theorem C3_failed_restore_clobbers_file :
    (restore_file_version (fun _ => .fail []) exPath "h1" 5 exStD).1 = none ∧
    dictGet? (restore_file_version (fun _ => .fail []) exPath "h1" 5 exStD).2.files "f"
        = some [] ∧
    dictGet? exStD.files "f" = some [1, 2] := by
  decide

/-- C4 counterexample: during `save_tracked_files`'s in-place rewrite the
canonical file is observable holding `[1]`, which is neither the old
document `[3]` nor the new document `[1, 2]`. -/
theorem C4_save_not_atomic :
    ([1] : Bytes) ∈ saveStatesInPlace [1, 2] ∧ ([1] : Bytes) ≠ [3] ∧ ([1] : Bytes) ≠ [1, 2] := by
  decide

/-- C5 counterexample: the current content hashes to `"h1"`, the id of a
recorded (older) version, yet `has_file_changed` reports `changed = true`
because it compares only against the latest version `"h2"` — so
`changed = false` is NOT equivalent to "some version matches the current
hash". -/
theorem C5_matching_old_version_reports_changed :
    has_file_changed exHash exStC.files exStC.catalogFile exPath
        = some (true, "h1", "h2") ∧
    ((dictGet? exStC.catalogFile "f").map
        (fun e => e.versions.map Prod.fst)).getD [] = ["h1", "h2"] ∧
    exHash [1] = "h1" ∧ dictGet? exStC.files "f" = some [1] := by
  decide

/-- C6 counterexample: after a forced recommit of unchanged content, the
path has exactly one version but its `previous_hash` is its own version
id `"h1"` instead of the empty string the claim requires for a sole
version. -/
theorem C6_forced_recommit_breaks_linkage :
    (list_versions (commit_file_action exHash exCodec exPath "again" "u" "md" 5 3 true
        exStB).2.catalogFile exPath).map (fun kv => (kv.1, kv.2.previous_hash))
        = [("h1", "h1")] := by
  decide

/-- C8 counterexample: committing content whose hash `"h1"` equals an old
version that the quota (`max_backups = 1`) evicts succeeds with
`version_id = "h1"`, but the sweep deletes the just-written blob
`h1.gz`, so the subsequent restore of `"h1"` raises instead of
reproducing the content. -/
theorem C8_roundtrip_fails_on_evicted_id :
    (commit_file_action exHash exCodec exPath "edit" "u" "md" 1 3 false exStC).1
        = .committed "h1" true ∧
    (restore_file_version (fun b => .ok b) exPath "h1" 4
        (commit_file_action exHash exCodec exPath "edit" "u" "md" 1 3 false exStC).2).1
        = none := by
  decide

/-- C2 amended: a second commit of a path whose content is unchanged
(its hash `h` is the id of the latest recorded version) creates no new
version entry.  Declining the "backup anyway" prompt performs no write at
all; accepting it (force) rewrites the blob `h.gz`, re-runs the sweep,
and overwrites the existing catalog entry for `h` in place with the new
timestamp and message and with `previous_hash = h` (its own id) — the
version key set is unchanged, so exactly one version for that content
remains, but the entry is not identical to the one before. -/
theorem C2_recommit_unchanged (hashFn : Bytes → String) (compress : Bytes → Bytes)
    (p : PathId) (message username metadata : String) (maxBackups now : Nat)
    (st : SysState) (content : Bytes) (e : Entry) (h : String) (v0 : Version)
    (listing : List (String × Bytes))
    (hf : dictGet? st.files p.norm = some content)
    (hc : dictGet? st.catalogFile p.norm = some e)
    (hdir : dictGet? st.versionDirs p.base = some listing)
    (hh : hashFn content = h)
    (hlatest : specLatest e.versions = some (h, v0))
    (hq : e.versions.length ≤ maxBackups)
    (hmsg : pyStrip message ≠ "") :
    commit_file_action hashFn compress p message username metadata maxBackups now false st
        = (.declined, st) ∧
    commit_file_action hashFn compress p message username metadata maxBackups now true st
        = (.committed h false,
           { catalogFile := dictInsert st.catalogFile p.norm
               ⟨dictInsert e.versions h ⟨now, pyStrip message, username, metadata, h⟩⟩,
             files := st.files,
             versionDirs := dictInsert st.versionDirs p.base
               (dictInsert listing (h ++ ".gz") (compress content)),
             tempBackups := st.tempBackups.filter (fun b => !(bakExpired p.base now b)) }) ∧
    (dictInsert e.versions h ⟨now, pyStrip message, username, metadata, h⟩).map Prod.fst
        = e.versions.map Prod.fst := by
  have hne : e.versions ≠ [] := specLatest_ne_nil _ _ hlatest
  have hhead : (sortByTsDesc e.versions).head? = some (h, v0) := by
    rw [head?_sortByTsDesc]
    exact hlatest
  have hhc : has_file_changed hashFn st.files st.catalogFile p = some (false, h, h) := by
    cases hs : sortByTsDesc e.versions with
    | nil => rw [hs] at hhead; simp at hhead
    | cons kv0 rest =>
      rw [hs] at hhead
      simp only [List.head?_cons, Option.some.injEq] at hhead
      subst hhead
      simp only [has_file_changed, hf, hc, if_neg hne, hs, hh]
      simp
  have hmem : dictMem st.catalogFile p.norm = true := by
    simp [dictMem, hc]
  have hvmem : (dictGet? e.versions h).isSome := by
    have hm : ((h, v0) : String × Version) ∈ e.versions := specLatest_mem _ _ hlatest
    exact dictGet?_isSome_of_mem _ _ hm
  refine ⟨?_, ?_, keys_dictInsert_of_mem _ _ _ hvmem⟩
  · simp only [commit_file_action, hf, if_neg hmsg, load_tracked_files, hhc,
      Bool.not_false, Bool.and_self, if_true]
  · have hcb := create_backup_no_evict compress p h maxBackups now st content e listing
      hf hdir hc hne hq
    simp only [commit_file_action, hf, if_neg hmsg, load_tracked_files, hhc,
      Bool.not_false, Bool.not_true, Bool.and_false, Bool.false_eq_true, if_false,
      hcb, hmem, if_true, hc, Option.getD_some, save_tracked_files]

/-- C2 witness: at the concrete one-version state `exStB`, declining
writes nothing and forcing keeps the single key `"h1"`. -/
theorem C2_recommit_unchanged_witness :
    commit_file_action exHash exCodec exPath "again" "u" "md" 5 2 false exStB
      = (.declined, exStB) ∧
    ((commit_file_action exHash exCodec exPath "again" "u" "md" 5 2 true
        exStB).2.catalogFile.map (fun kv => kv.2.versions.map Prod.fst)) = [["h1"]] := by
  have hw := C2_recommit_unchanged exHash exCodec exPath "again" "u" "md" 5 2 exStB [1]
    ⟨[("h1", ⟨1, "init", "u", "md", ""⟩)]⟩ "h1" ⟨1, "init", "u", "md", ""⟩
    [("h1.gz", [1])] (by decide) (by decide) (by decide) (by decide) (by decide)
    (by decide) (by decide)
  refine ⟨hw.1, ?_⟩
  rw [hw.2.1]
  decide

/-- C3 amended: `restore_file_version` first saves the current bytes as a
timestamped rescue copy in `temp_backups/`, then decompresses the blob
directly over the file in place (no temp file, no atomic rename).  On a
successful decode the path holds the blob's bytes; on a mid-way decode
failure the path holds the bytes written so far — not the original —
while the original bytes survive only as the rescue copy. -/
theorem C3_restore_in_place (dec : Bytes → DecodeResult) (p : PathId)
    (fileHash : String) (now : Nat) (st : SysState)
    (listing : List (String × Bytes)) (blob cur : Bytes)
    (hdir : dictGet? st.versionDirs p.base = some listing)
    (hblob : dictGet? listing (fileHash ++ ".gz") = some blob)
    (hcur : dictGet? st.files p.norm = some cur) :
    (∀ b, dec blob = .ok b →
      restore_file_version dec p fileHash now st =
        (some (), { st with
            files := dictInsert st.files p.norm b,
            tempBackups := st.tempBackups
              ++ [⟨p.base ++ "." ++ toString now ++ ".bak", now, cur⟩] })) ∧
    (∀ w, dec blob = .fail w →
      restore_file_version dec p fileHash now st =
        (none, { st with
            files := dictInsert st.files p.norm w,
            tempBackups := st.tempBackups
              ++ [⟨p.base ++ "." ++ toString now ++ ".bak", now, cur⟩] })) := by
  constructor
  · intro b hb
    simp only [restore_file_version, ensureVersionDir_of_mem _ _ _ hdir, hdir,
      Option.getD_some, hblob, hcur, hb]
  · intro w hw
    simp only [restore_file_version, ensureVersionDir_of_mem _ _ _ hdir, hdir,
      Option.getD_some, hblob, hcur, hw]

/-- C3 witness: a decode that fails after emitting `[9]` leaves `[9]` at
the path while the rescue copy holds the original `[1, 2]`. -/
theorem C3_restore_in_place_witness :
    restore_file_version (fun _ => .fail [9]) exPath "h1" 5 exStD
      = (none, { exStD with
          files := [("f", [9])],
          tempBackups := [⟨"f.5.bak", 5, [1, 2]⟩] }) := by
  have hw := (C3_restore_in_place (fun _ => .fail [9]) exPath "h1" 5 exStD
    [("h1.gz", [9])] [9] [1, 2] (by decide) (by decide) (by decide)).2 [9] rfl
  exact hw.trans (by decide)

/-- C4 amended: `save_tracked_files` rewrites `tracked_files.json` in
place — the file is truncated and the new document written sequentially,
so every observable intermediate content is a prefix of the new document
(the empty and the complete document among them); an interruption leaves
such a prefix, not necessarily the old or the new document. -/
theorem C4_save_in_place_prefixes (newDoc : Bytes) :
    (∀ s ∈ saveStatesInPlace newDoc, ∃ t, s ++ t = newDoc) ∧
    [] ∈ saveStatesInPlace newDoc ∧ newDoc ∈ saveStatesInPlace newDoc := by
  refine ⟨?_, ?_, ?_⟩
  · intro s hs
    simp only [saveStatesInPlace, List.mem_map, List.mem_range] at hs
    obtain ⟨k, -, rfl⟩ := hs
    exact ⟨newDoc.drop k, List.take_append_drop k newDoc⟩
  · simp only [saveStatesInPlace, List.mem_map, List.mem_range]
    exact ⟨0, Nat.succ_pos _, rfl⟩
  · simp only [saveStatesInPlace, List.mem_map, List.mem_range]
    exact ⟨newDoc.length, Nat.lt_succ_self _, List.take_length newDoc⟩

/-- C4 witness: instance of the prefix property at the document `[1, 2]`. -/
theorem C4_save_in_place_prefixes_witness :
    ([] : Bytes) ∈ saveStatesInPlace [1, 2] ∧ ∃ t, ([1] : Bytes) ++ t = [1, 2] := by
  refine ⟨(C4_save_in_place_prefixes [1, 2]).2.1, ?_⟩
  exact (C4_save_in_place_prefixes [1, 2]).1 [1] (by decide)

/-- C5 amended: for a readable file, `has_file_changed` reports
`changed = false` exactly when the current hash equals the id of the
*latest* version (maximal `committed_at_utc`, ties broken by insertion
order — `specLatest`), not when any version matches; with no prior
version it reports `(true, current_hash, "")`. -/
theorem C5_change_detection_latest (hashFn : Bytes → String)
    (files : List (String × Bytes)) (tracked : Catalog) (p : PathId) (content : Bytes)
    (hf : dictGet? files p.norm = some content) :
    (dictGet? tracked p.norm = none →
      has_file_changed hashFn files tracked p = some (true, hashFn content, "")) ∧
    (∀ e, dictGet? tracked p.norm = some e → e.versions = [] →
      has_file_changed hashFn files tracked p = some (true, hashFn content, "")) ∧
    (∀ e lv, dictGet? tracked p.norm = some e → specLatest e.versions = some lv →
      has_file_changed hashFn files tracked p
        = some (decide (hashFn content ≠ lv.1), hashFn content, lv.1)) := by
  refine ⟨fun h => by simp [has_file_changed, hf, h],
          fun e he hv => by simp [has_file_changed, hf, he, hv],
          fun e lv he hl => ?_⟩
  have hne : e.versions ≠ [] := specLatest_ne_nil _ _ hl
  have hhead : (sortByTsDesc e.versions).head? = some lv := by
    rw [head?_sortByTsDesc]
    exact hl
  cases hs : sortByTsDesc e.versions with
  | nil => rw [hs] at hhead; simp at hhead
  | cons kv0 rest =>
    rw [hs] at hhead
    simp only [List.head?_cons, Option.some.injEq] at hhead
    subst hhead
    simp only [has_file_changed, hf, he, if_neg hne, hs]

/-- C5 witness: at `exStC` the current hash `"h1"` differs from the
latest `"h2"`, so change is reported even though `"h1"` is recorded. -/
theorem C5_change_detection_latest_witness :
    has_file_changed exHash exStC.files exStC.catalogFile exPath
      = some (true, "h1", "h2") := by
  have hw := (C5_change_detection_latest exHash exStC.files exStC.catalogFile exPath
    [1] (by decide)).2.2 ⟨[("h1", ⟨1, "a", "u", "md", ""⟩), ("h2", ⟨2, "b", "u", "md", "h1"⟩)]⟩
    ("h2", ⟨2, "b", "u", "md", "h1"⟩) (by decide) (by decide)
  exact hw.trans (by decide)

/-- C6 amended: the displayed version list is always sorted by
non-increasing timestamp, and after a commit of *changed* content (fresh
hash, strictly later timestamp) the newest entry's `previous_hash` equals
the id of the previously-latest version — the second entry of the list —
or `""` when none existed.  (After a forced recommit of unchanged
content the newest entry instead points at itself, see the
counterexample.) -/
theorem C6_ordering_and_linkage (hashFn : Bytes → String) (compress : Bytes → Bytes)
    (p : PathId) (message username metadata : String) (maxBackups now : Nat)
    (st : SysState) (content : Bytes) (e : Entry) (h : String)
    (hf : dictGet? st.files p.norm = some content)
    (hc : dictGet? st.catalogFile p.norm = some e)
    (hh : hashFn content = h)
    (hfresh : ∀ kv ∈ e.versions, kv.1 ≠ h)
    (htime : ∀ kv ∈ e.versions, kv.2.timestamp < now)
    (hmsg : pyStrip message ≠ "") :
    (∀ (t : Catalog) (q : PathId), TsSorted (list_versions t q)) ∧
    (commit_file_action hashFn compress p message username metadata maxBackups now
        false st).1 = .committed h true ∧
    list_versions (commit_file_action hashFn compress p message username metadata maxBackups
        now false st).2.catalogFile p
      = (h, ⟨now, pyStrip message, username, metadata, lastHashOf e.versions⟩)
          :: sortByTsDesc e.versions ∧
    lastHashOf e.versions
      = (match (sortByTsDesc e.versions).head? with
         | none => ""
         | some kv => kv.1) := by
  obtain ⟨st1, hcb, heq⟩ := commit_fresh_eq hashFn compress p message username metadata
    maxBackups now st content h hf hh
    (fun e' he' => by rw [hc] at he'; cases he'; exact hfresh) hmsg
  refine ⟨?_, ?_, ?_, ?_⟩
  · intro t q
    cases hq : dictGet? t q.norm with
    | none => simp [list_versions, hq, TsSorted]
    | some e' =>
      simp only [list_versions, hq]
      exact tsSorted_sortByTsDesc e'.versions
  · rw [heq]
  · rw [heq]
    simp only [save_tracked_files, list_versions, commitFreshCatalog, hc,
      dictGet?_insert_self]
    exact sortByTsDesc_append_max _ _ htime
  · simp only [lastHashOf, ← head?_sortByTsDesc]

set_option maxRecDepth 4000 in
/-- C6 witness: committing fresh content `"h2"` at time 10 over the
single version `"h1"` yields the list `[h2 (prev h1), h1 (prev "")]`. -/
theorem C6_ordering_and_linkage_witness :
    list_versions (commit_file_action exHash exCodec exPath "edit" "u" "md" 5 10 false
        exStA).2.catalogFile exPath
      = [("h2", ⟨10, "edit", "u", "md", "h1"⟩), ("h1", ⟨1, "m1", "u", "md", ""⟩)] := by
  have hw := C6_ordering_and_linkage exHash exCodec exPath "edit" "u" "md" 5 10 exStA [2]
    ⟨[("h1", ⟨1, "m1", "u", "md", ""⟩)]⟩ "h2" (by decide) (by decide) (by decide)
    (by decide) (by decide) (by decide)
  exact hw.2.2.1.trans (by decide)

set_option maxRecDepth 40000 in
/-- C7 counterexample: there is no 200-character limit — a commit whose
trimmed message has 201 characters is accepted and written. -/
theorem C7_long_message_accepted :
    (pyStrip exLongMsg).data.length = 201 ∧
    (commit_file_action exHash exCodec exPath exLongMsg "u" "md" 5 10 false exStA).1
      = .committed "h2" true := by
  decide

/-- C7 amended: the only message validation is non-emptiness after
stripping: an all-whitespace message is rejected with the error dialog
and no state change, and every message that strips to something non-empty
— of any length — passes validation. -/
theorem C7_message_validation (hashFn : Bytes → String) (compress : Bytes → Bytes)
    (p : PathId) (message username metadata : String) (maxBackups now : Nat)
    (forceBackup : Bool) (st : SysState) (content : Bytes)
    (hf : dictGet? st.files p.norm = some content) :
    (pyStrip message = "" →
      commit_file_action hashFn compress p message username metadata maxBackups now
        forceBackup st = (.emptyMessage, st)) ∧
    (pyStrip message ≠ "" →
      (commit_file_action hashFn compress p message username metadata maxBackups now
        forceBackup st).1 ≠ .emptyMessage ∧
      (commit_file_action hashFn compress p message username metadata maxBackups now
        forceBackup st).1 ≠ .noFile) := by
  constructor
  · intro h
    simp [commit_file_action, hf, h]
  · intro h
    simp only [commit_file_action, hf, if_neg h]
    cases hc : has_file_changed hashFn st.files (load_tracked_files st) p with
    | none => simp
    | some r =>
      obtain ⟨hasChanged, current, last⟩ := r
      by_cases hb : (!hasChanged && !forceBackup) = true
      · simp [hb]
      · simp only [Bool.not_eq_true] at hb
        simp only [hb, Bool.false_eq_true, if_false]
        cases hcb : create_backup compress p current maxBackups now st with
        | none => simp
        | some st1 => simp

/-- C7 witness: an all-blank message is rejected without writes; a
non-blank one passes validation. -/
theorem C7_message_validation_witness :
    commit_file_action exHash exCodec exPath "   " "u" "md" 5 1 false exStB
      = (.emptyMessage, exStB) ∧
    (commit_file_action exHash exCodec exPath "again" "u" "md" 5 1 true exStB).1
      ≠ .emptyMessage := by
  refine ⟨(C7_message_validation exHash exCodec exPath "   " "u" "md" 5 1 false exStB
    [1] (by decide)).1 (by decide), ?_⟩
  exact ((C7_message_validation exHash exCodec exPath "again" "u" "md" 5 1 true exStB
    [1] (by decide)).2 (by decide)).1

/-- C8 amended: for a commit of content whose hash `h` is *not* already a
recorded version of the path, restoring `h` afterwards succeeds and
reproduces the committed bytes, so rehashing yields `h` (given the gzip
round-trip contract `dec (compress b) = ok b`; when `h` coincides with a
version the sweep evicts, the blob is deleted and restore fails, see the
counterexample). -/
theorem C8_roundtrip_fresh_commit (hashFn : Bytes → String) (compress : Bytes → Bytes)
    (dec : Bytes → DecodeResult) (p : PathId) (message username metadata : String)
    (maxBackups now now2 : Nat) (st : SysState) (content : Bytes) (h : String)
    (hf : dictGet? st.files p.norm = some content)
    (hh : hashFn content = h)
    (hfresh : ∀ e, dictGet? st.catalogFile p.norm = some e → ∀ kv ∈ e.versions, kv.1 ≠ h)
    (hmsg : pyStrip message ≠ "")
    (hdec : dec (compress content) = .ok content) :
    (commit_file_action hashFn compress p message username metadata maxBackups now
        false st).1 = .committed h true ∧
    (restore_file_version dec p h now2
        (commit_file_action hashFn compress p message username metadata maxBackups now
          false st).2).1 = some () ∧
    dictGet? (restore_file_version dec p h now2
        (commit_file_action hashFn compress p message username metadata maxBackups now
          false st).2).2.files p.norm = some content ∧
    hashFn content = h := by
  obtain ⟨st1, listing1, hcb, hd1, hb1, hfiles1⟩ :=
    create_backup_fresh_blob compress p h maxBackups now st content hf hfresh
  obtain ⟨st1', hcb', heq⟩ := commit_fresh_eq hashFn compress p message username metadata
    maxBackups now st content h hf hh hfresh hmsg
  have hst : st1' = st1 := by
    rw [hcb] at hcb'
    exact (Option.some.inj hcb').symm
  rw [hst] at heq
  set stF := save_tracked_files st1
    (commitFreshCatalog st.catalogFile p h (pyStrip message) username metadata now) with hstF
  have hdF : dictGet? stF.versionDirs p.base = some listing1 := hd1
  have hfF : dictGet? stF.files p.norm = some content := by
    show dictGet? st1.files p.norm = some content
    rw [hfiles1]
    exact hf
  have hres : restore_file_version dec p h now2 stF =
      (some (), { stF with
          files := dictInsert stF.files p.norm content,
          tempBackups := stF.tempBackups
            ++ [⟨p.base ++ "." ++ toString now2 ++ ".bak", now2, content⟩] }) := by
    simp only [restore_file_version, ensureVersionDir_of_mem _ _ _ hdF, hdF,
      Option.getD_some, hb1, hfF, hdec]
  rw [heq]
  refine ⟨rfl, ?_, ?_, hh⟩
  · rw [hres]
  · rw [hres]
    exact dictGet?_insert_self _ _ _

/-- C8 witness: concrete instance — commit fresh content `[2]` over
`exStA`, then restore it and find the same bytes at the path. -/
theorem C8_roundtrip_fresh_commit_witness :
    (commit_file_action exHash exCodec exPath "edit" "u" "md" 5 10 false exStA).1
      = .committed "h2" true ∧
    dictGet? (restore_file_version (fun b => .ok b) exPath "h2" 11
        (commit_file_action exHash exCodec exPath "edit" "u" "md" 5 10 false
          exStA).2).2.files "f" = some [2] := by
  have hw := C8_roundtrip_fresh_commit exHash exCodec (fun b => .ok b) exPath "edit" "u"
    "md" 5 10 11 exStA [2] "h2" (by decide) (by decide) (by decide) (by decide) rfl
  exact ⟨hw.1, hw.2.2.1⟩

/-- C9: `get_backup_count` is total and never raises: it returns 0 when
the per-path version directory is absent, 0 when inspecting it raises an
OS error, and otherwise the number of directory entries whose name ends
in `.gz` — a count never exceeding the number of entries. -/
theorem C9_backup_count_total (p : PathId) (d : DirListing) :
    (d = .absent → get_backup_count p d = 0) ∧
    (d = .oserr → get_backup_count p d = 0) ∧
    (∀ names, d = .ok names →
      get_backup_count p d = (names.filter (fun f => strEndsWith f ".gz")).length ∧
      get_backup_count p d ≤ names.length) := by
  refine ⟨fun h => by rw [h]; rfl, fun h => by rw [h]; rfl, fun names h => ?_⟩
  rw [h]
  exact ⟨rfl, List.length_filter_le _ names⟩

/-- C9 witness: a directory with one `.gz` among two entries counts 1;
an absent directory counts 0. -/
theorem C9_backup_count_total_witness :
    get_backup_count exPath (.ok ["a.gz", "b.txt"]) = 1 ∧
    get_backup_count exPath .absent = 0 := by
  refine ⟨?_, (C9_backup_count_total exPath .absent).1 rfl⟩
  have hw := ((C9_backup_count_total exPath (.ok ["a.gz", "b.txt"])).2.2
    ["a.gz", "b.txt"] rfl).1
  rw [hw]
  decide

/-- C10: the retention sweep is a no-op — same caller dict, same
filesystem and catalog file, no save — whenever the per-base version
directory does not exist, the normalized path is absent from the caller's
dict, or the path's version map is empty. -/
theorem C10_sweep_early_return_frame (p : PathId) (maxBackups now : Nat)
    (tracked : Catalog) (st : SysState)
    (h : dictGet? st.versionDirs p.base = none ∨ dictGet? tracked p.norm = none ∨
         ∃ e, dictGet? tracked p.norm = some e ∧ e.versions = []) :
    clean_old_backups p maxBackups now tracked st = ⟨tracked, st, false⟩ := by
  rcases h with h | h | ⟨e, he, hv⟩
  · simp [clean_old_backups, h]
  · cases hd : dictGet? st.versionDirs p.base with
    | none => simp [clean_old_backups, hd]
    | some l => simp [clean_old_backups, hd, h]
  · cases hd : dictGet? st.versionDirs p.base with
    | none => simp [clean_old_backups, hd]
    | some l => simp [clean_old_backups, hd, he, hv]

/-- C10 witness: sweeping a path that is absent from the caller's dict
changes nothing and saves nothing. -/
theorem C10_sweep_early_return_frame_witness :
    clean_old_backups exPath 5 0 [] exStD = ⟨[], exStD, false⟩ :=
  C10_sweep_early_return_frame exPath 5 0 [] exStD (Or.inr (Or.inl rfl))

end Inveni
